import Mathlib

/-!
# Verification of the kustomize-diff tree patch engine and resolver

This development embeds the algorithmic core of `kdiff.go` (an untyped
YAML tree, path addressing, the JSON-patch-like add/replace/remove
dialect, the strategic-merge dialect, the provenance log, and the
patch-collection fragments of the resolver) as pure Lean functions and
proves or refutes the specified properties of the program.

Modelling conventions:
* A Go `interface{}` tree node is `Value`: `null` (Go `nil`), booleans,
  numbers, strings, lists (`[]interface{}`) and maps
  (`map[string]interface{}`).  Maps are association lists with distinct
  keys kept in a canonical insertion order; `reflect.DeepEqual`, which
  ignores Go map iteration order, is modelled by structural equality of
  this canonical form.
* YAML numbers decode to `float64` in Go; the claims under study never
  exercise fractional arithmetic, so numbers are carried as `Int`.
* Go string primitives (`strings.Split`, `strconv.Atoi`) are modelled
  by structurally recursive functions over `String.toList`, so that all
  definitions evaluate on concrete inputs.
* Go maps are reference values, so an in-place mutation of a nested map
  is visible to every holder; each embedded mutator therefore returns
  the subtree as the caller observes it after the call.
* Go slices are (pointer, len, cap) headers passed by value.  A
  statement `m = append(...)` inside `applyAdd`/`applyRemove` writes a
  new header into a local variable that is discarded when the function
  returns; the caller keeps its own header, so it observes only the
  writes `append` made into the shared backing array within the first
  `len` positions.  Concretely:
  - `applyAdd`'s `-1` append writes (at most) at position `len`, which
    the caller never sees: the observed list is unchanged;
  - `applyAdd`'s in-range insert is observed only when `append` does
    not reallocate, i.e. when the slice has spare capacity; whether it
    does is heap state not recoverable from the tree value, so it is
    an explicit `spare : Bool` parameter.  With spare capacity the
    caller sees the elements shifted right within its original length
    (the last original element falls off); without it, no change;
  - `applyRemove`'s in-range removal never reallocates, so the caller
    always sees the tail shifted left by one within its original
    length, leaving the final position holding the old last element.
-/

/-- An untyped YAML/JSON document tree, as decoded into Go's
`interface{}` by `yaml.Unmarshal` in `kdiff.go`. -/
inductive Value where
  | null : Value
  | bool (b : Bool) : Value
  | num (n : Int) : Value
  | str (s : String) : Value
  | arr (elems : List Value) : Value
  | obj (entries : List (String × Value)) : Value

mutual

/-- `reflect.DeepEqual` on decoded YAML trees: structural equality. -/
def deepEqual : Value → Value → Bool
  | .null, .null => true
  | .bool a, .bool b => a == b
  | .num a, .num b => a == b
  | .str a, .str b => a == b
  | .arr a, .arr b => deepEqualArr a b
  | .obj a, .obj b => deepEqualObj a b
  | _, _ => false

/-- Elementwise `deepEqual` on lists. -/
def deepEqualArr : List Value → List Value → Bool
  | [], [] => true
  | x :: xs, y :: ys => deepEqual x y && deepEqualArr xs ys
  | _, _ => false

/-- Entrywise `deepEqual` on maps (canonical binding order). -/
def deepEqualObj : List (String × Value) → List (String × Value) → Bool
  | [], [] => true
  | (k, x) :: xs, (l, y) :: ys => k == l && deepEqual x y && deepEqualObj xs ys
  | _, _ => false

end

/-- Structural induction for `Value` that hands the inductive
hypothesis to every member of a list/map node. -/
def Value.recMem {motive : Value → Prop}
    (hnull : motive .null)
    (hbool : ∀ b, motive (.bool b))
    (hnum : ∀ n, motive (.num n))
    (hstr : ∀ s, motive (.str s))
    (harr : ∀ elems, (∀ v ∈ elems, motive v) → motive (.arr elems))
    (hobj : ∀ entries, (∀ kv ∈ entries, motive kv.2) → motive (.obj entries)) :
    ∀ v, motive v
  | .null => hnull
  | .bool b => hbool b
  | .num n => hnum n
  | .str s => hstr s
  | .arr elems =>
      harr elems (fun v hv =>
        have : sizeOf v < 1 + sizeOf elems := by
          have := List.sizeOf_lt_sizeOf_of_mem hv
          omega
        Value.recMem hnull hbool hnum hstr harr hobj v)
  | .obj entries =>
      hobj entries (fun kv hkv =>
        have : sizeOf kv.2 < 1 + sizeOf entries := by
          have h1 := List.sizeOf_lt_sizeOf_of_mem hkv
          have h2 : sizeOf kv.2 < sizeOf kv := by
            obtain ⟨k, v⟩ := kv
            simp only [Prod.mk.sizeOf_spec]
            omega
          omega
        Value.recMem hnull hbool hnum hstr harr hobj kv.2)
termination_by v => sizeOf v

/-- `deepEqual` decides propositional equality of trees. -/
theorem deepEqual_iff : ∀ a b : Value, deepEqual a b = true ↔ a = b := by
  intro a
  induction a using Value.recMem with
  | hnull => intro b; cases b <;> simp [deepEqual]
  | hbool x => intro b; cases b <;> simp [deepEqual]
  | hnum x => intro b; cases b <;> simp [deepEqual]
  | hstr x => intro b; cases b <;> simp [deepEqual]
  | harr elems ih =>
    intro b
    cases b with
    | arr bs =>
      simp only [deepEqual, Value.arr.injEq]
      induction elems generalizing bs with
      | nil => cases bs <;> simp [deepEqualArr]
      | cons x xs ihx =>
        cases bs with
        | nil => simp [deepEqualArr]
        | cons y ys =>
          have hx := ih x (by simp)
          have hxs : ∀ v ∈ xs, ∀ b, deepEqual v b = true ↔ v = b :=
            fun v hv => ih v (by simp [hv])
          simp [deepEqualArr, hx y, ihx hxs ys]
    | null => simp [deepEqual]
    | bool x => simp [deepEqual]
    | num x => simp [deepEqual]
    | str x => simp [deepEqual]
    | obj x => simp [deepEqual]
  | hobj entries ih =>
    intro b
    cases b with
    | obj bs =>
      simp only [deepEqual, Value.obj.injEq]
      induction entries generalizing bs with
      | nil => cases bs <;> simp [deepEqualObj]
      | cons x xs ihx =>
        cases bs with
        | nil => simp [deepEqualObj]
        | cons y ys =>
          have hx := ih x (by simp)
          have hxs : ∀ kv ∈ xs, ∀ b, deepEqual kv.2 b = true ↔ kv.2 = b :=
            fun kv hkv => ih kv (by simp [hkv])
          obtain ⟨k, xv⟩ := x
          obtain ⟨l, yv⟩ := y
          simp [deepEqualObj, hx yv, ihx hxs ys, Prod.ext_iff, and_assoc]
    | null => simp [deepEqual]
    | bool x => simp [deepEqual]
    | num x => simp [deepEqual]
    | str x => simp [deepEqual]
    | arr x => simp [deepEqual]

instance : DecidableEq Value := fun a b =>
  decidable_of_iff (deepEqual a b = true) (deepEqual_iff a b)

/-- Lookup in a Go map modelled as an association list
(`val, exists := m[key]`, keys are distinct so the first binding is
the binding). -/
def lookupStr : List (String × Value) → String → Option Value
  | [], _ => none
  | (k', v) :: rest, k => if k' = k then some v else lookupStr rest k

/-- Go map assignment `m[key] = v`: replace the binding if the key is
present, otherwise add it (at the end of the canonical order). -/
def setKey : List (String × Value) → String → Value → List (String × Value)
  | [], k, v => [(k, v)]
  | (k', v') :: rest, k, v =>
      if k' = k then (k', v) :: rest else (k', v') :: setKey rest k v

/-- Go map deletion `delete(m, key)`. -/
def removeKey : List (String × Value) → String → List (String × Value)
  | [], _ => []
  | (k', v') :: rest, k =>
      if k' = k then rest else (k', v') :: removeKey rest k

/-- Decimal digit accumulator for `goAtoi`. -/
def digitsToNat : List Char → Nat → Nat
  | [], acc => acc
  | c :: cs, acc => digitsToNat cs (acc * 10 + (c.toNat - 48))

/-- Digit-part handling of `strconv.Atoi`: at least one character, all
ASCII digits, and the signed result must fit in 64 bits. -/
def goAtoiCore (sign : Int) (digits : List Char) : Option Int :=
  if digits.isEmpty then none
  else if digits.all Char.isDigit then
    let n : Int := sign * (digitsToNat digits 0 : Nat)
    if -9223372036854775808 ≤ n ∧ n ≤ 9223372036854775807 then some n else none
  else none

/-- `strconv.Atoi`: an optional sign, then one or more ASCII digits,
rejecting anything else. -/
def goAtoi (s : String) : Option Int :=
  match s.toList with
  | '-' :: rest => goAtoiCore (-1) rest
  | '+' :: rest => goAtoiCore 1 rest
  | cs => goAtoiCore 1 cs

/-- `strings.Split` on `"/"`, one segment accumulator at a time. -/
def splitSegs : List Char → List Char → List String
  | [], acc => [String.mk acc.reverse]
  | c :: cs, acc =>
      if c = '/' then String.mk acc.reverse :: splitSegs cs []
      else splitSegs cs (c :: acc)

/-- `parsePath` (kdiff.go:460): strip one leading slash, then split on
every `/`. -/
def parsePath (path : String) : List String :=
  match path.toList with
  | '/' :: rest => splitSegs rest []
  | cs => splitSegs cs []

/-- `getValueAtPath` (kdiff.go:468): walk the tree segment by segment;
Go returns `nil` — here `Value.null` — as the absent value whenever a
map key is missing, a list index fails to parse or is out of range, or
a scalar is reached with path left over. -/
def getValueAtPath : Value → List String → Value
  | m, [] => m
  | m, key :: rest =>
    match m with
    | .obj entries =>
      match lookupStr entries key with
      | some v => getValueAtPath v rest
      | none => .null
    | .arr elems =>
      match goAtoi key with
      | some idx =>
          if 0 ≤ idx ∧ idx < (elems.length : Int) then
            getValueAtPath (elems.getD idx.toNat .null) rest
          else .null
      | none => .null
    | _ => .null


/-- `applyAdd` (kdiff.go:518).  Result is the subtree as the caller
observes it.  At a final map segment the key is set; at a final list
segment Go assigns `m = append(...)` to a discarded local header, so
the `-1` append is never observed and an in-range insert is observed
only when the slice had spare capacity (`spare`), as a right shift
within the original length.  Intermediate map keys auto-vivify as
empty maps (the vivified map is installed even if the rest of the path
then no-ops); intermediate list segments require an in-range index. -/
def applyAdd (spare : Bool) : Value → List String → Value → Value
  | m, [], _ => m
  | m, [key], v =>
    match m with
    | .obj entries => .obj (setKey entries key v)
    | .arr elems =>
      match goAtoi key with
      | some idx =>
          if idx = -1 then m
          else if 0 ≤ idx ∧ idx ≤ (elems.length : Int) then
            if spare then
              .arr ((elems.take idx.toNat ++ v :: elems.drop idx.toNat).take elems.length)
            else m
          else m
      | none => m
    | _ => m
  | m, key :: rest, v =>
    match m with
    | .obj entries =>
        .obj (setKey entries key
          (applyAdd spare ((lookupStr entries key).getD (.obj [])) rest v))
    | .arr elems =>
      match goAtoi key with
      | some idx =>
          if 0 ≤ idx ∧ idx < (elems.length : Int) then
            .arr (elems.set idx.toNat
              (applyAdd spare (elems.getD idx.toNat .null) rest v))
          else m
      | none => m
    | _ => m

/-- `applyReplace` (kdiff.go:553).  Identical to `applyAdd` except at a
final list segment, where the element is overwritten in place through
the shared backing array (always observed, no `-1` sentinel, and only
for an in-range index). -/
def applyReplace : Value → List String → Value → Value
  | m, [], _ => m
  | m, [key], v =>
    match m with
    | .obj entries => .obj (setKey entries key v)
    | .arr elems =>
      match goAtoi key with
      | some idx =>
          if 0 ≤ idx ∧ idx < (elems.length : Int) then
            .arr (elems.set idx.toNat v)
          else m
      | none => m
    | _ => m
  | m, key :: rest, v =>
    match m with
    | .obj entries =>
        .obj (setKey entries key
          (applyReplace ((lookupStr entries key).getD (.obj [])) rest v))
    | .arr elems =>
      match goAtoi key with
      | some idx =>
          if 0 ≤ idx ∧ idx < (elems.length : Int) then
            .arr (elems.set idx.toNat
              (applyReplace (elems.getD idx.toNat .null) rest v))
          else m
      | none => m
    | _ => m

/-- `applyRemove` (kdiff.go:584).  A final map key is deleted; at a
final in-range list index Go assigns `m = append(m[:idx], m[idx+1:]...)`
to a discarded local header — the write happens in place in the shared
backing array, so the caller observes the tail shifted left within the
original length with the old last element still in the final slot.
Intermediate map keys are only descended into when present (no
vivification); intermediate list indices must be in range. -/
def applyRemove : Value → List String → Value
  | m, [] => m
  | m, [key] =>
    match m with
    | .obj entries => .obj (removeKey entries key)
    | .arr elems =>
      match goAtoi key with
      | some idx =>
          if 0 ≤ idx ∧ idx < (elems.length : Int) then
            .arr (elems.eraseIdx idx.toNat ++ elems.drop (elems.length - 1))
          else m
      | none => m
    | _ => m
  | m, key :: rest =>
    match m with
    | .obj entries =>
      match lookupStr entries key with
      | some child => .obj (setKey entries key (applyRemove child rest))
      | none => m
    | .arr elems =>
      match goAtoi key with
      | some idx =>
          if 0 ≤ idx ∧ idx < (elems.length : Int) then
            .arr (elems.set idx.toNat
              (applyRemove (elems.getD idx.toNat .null) rest))
          else m
      | none => m
    | _ => m

mutual

/-- `mergeMap` (kdiff.go:614): for each patch entry in order, combine
it with the destination's value at that key (`mergeOne`) and store the
result. -/
def mergeMap (dst : List (String × Value)) : List (String × Value) → List (String × Value)
  | [] => dst
  | (key, srcVal) :: rest =>
      mergeMap (setKey dst key (mergeOne (lookupStr dst key) srcVal)) rest
termination_by src => sizeOf src
decreasing_by
  all_goals simp only [List.cons.sizeOf_spec, Prod.mk.sizeOf_spec]
  all_goals omega

/-- One `mergeMap` key (kdiff.go:615-631): map-into-map merges
recursively, list-onto-list concatenates (destination first), and any
other combination — including a missing destination key — takes the
patch value outright. -/
def mergeOne : Option Value → Value → Value
  | some (.obj d), .obj s => .obj (mergeMap d s)
  | some (.arr d), .arr s => .arr (d ++ s)
  | _, srcVal => srcVal
termination_by _o v => sizeOf v
decreasing_by
  all_goals simp only [Value.obj.sizeOf_spec]
  all_goals omega

end

mutual

/-- `deepCopyValue` (kdiff.go:634): a structural copy of a tree. -/
def deepCopyValue : Value → Value
  | .obj entries => .obj (deepCopyObj entries)
  | .arr elems => .arr (deepCopyArr elems)
  | v => v

/-- Entrywise `deepCopyValue` over a map's bindings. -/
def deepCopyObj : List (String × Value) → List (String × Value)
  | [] => []
  | (k, v) :: rest => (k, deepCopyValue v) :: deepCopyObj rest

/-- Elementwise `deepCopyValue` over a list. -/
def deepCopyArr : List Value → List Value
  | [] => []
  | v :: rest => deepCopyValue v :: deepCopyArr rest

end

/-- A Field Change Record (`FieldSource`, kdiff.go:22): which patch
changed which field of which resource from what to what.  Go's `nil`
for `Original`/`New` — the absent value — is `Value.null`. -/
structure FieldSource where
  resource : String
  path : List String
  source : String
  original : Value
  new : Value
  deriving DecidableEq

/-- One iteration of the changed-keys loop of the post-merge
provenance scan (kdiff.go:269-281): a merged binding yields a record
iff it differs from the snapshot (`reflect.DeepEqual`, modelled by
`deepEqual`; a key absent from the snapshot has `oldVal = nil`).  Go
iterates the maps in unspecified order; the canonical binding order is
used below, and every property proved about the scan is insensitive
to that order. -/
def mergeScanEntry (resKey source : String) (originalState : List (String × Value))
    (kv : String × Value) : Option FieldSource :=
  match lookupStr originalState kv.1 with
  | some oldVal =>
      if deepEqual oldVal kv.2 then none
      else some ⟨resKey, [kv.1], source, oldVal, kv.2⟩
  | none => some ⟨resKey, [kv.1], source, .null, kv.2⟩

/-- One iteration of the removed-keys loop (kdiff.go:283-293): a
snapshot binding whose key is gone from the merged map yields a
removal record. -/
def removedScanEntry (resKey source : String) (merged : List (String × Value))
    (kv : String × Value) : Option FieldSource :=
  match lookupStr merged kv.1 with
  | some _ => none
  | none => some ⟨resKey, [kv.1], source, kv.2, .null⟩

/-- Both post-merge provenance loops (kdiff.go:269-293) in order:
changed-or-added records over the merged map's bindings, then removal
records over the snapshot's bindings. -/
def mergeChangeRecords (resKey source : String)
    (originalState merged : List (String × Value)) : List FieldSource :=
  merged.filterMap (mergeScanEntry resKey source originalState)
  ++ originalState.filterMap (removedScanEntry resKey source merged)

/-- The strategic-merge branch of the patch loop (kdiff.go:258-293):
snapshot the resource map with `deepCopyValue`, merge the patch into
it, and report the merged map with the change records of the pass. -/
def applyMergePatch (resKey source : String)
    (resourceMap patchContent : List (String × Value)) :
    (List (String × Value)) × List FieldSource :=
  let originalState := deepCopyObj resourceMap
  let merged := mergeMap resourceMap patchContent
  (merged, mergeChangeRecords resKey source originalState merged)

/-- The JSON-patch branch of the patch loop (kdiff.go:201-257): for
each raw operation document, a non-map operation, a missing/non-string
`op` or a missing/non-string `path` is fatal (`logFatal`, modelled by
`Except.error`); otherwise the original value at the parsed path is
captured with `getValueAtPath` before mutating, `add`/`replace`/
`remove` dispatch to their appliers and append one record each
(`value` defaults to Go `nil` when absent; `remove` records `nil` as
the new value), and any other `op` string falls through the `switch`
with no effect. -/
def applyJsonOps (resKey source : String) (spare : Bool) :
    Value → List FieldSource → List Value → Except String (Value × List FieldSource)
  | t, log, [] => .ok (t, log)
  | t, log, op :: rest =>
    match op with
    | .obj opMap =>
      match lookupStr opMap "op" with
      | some (.str opType) =>
        match lookupStr opMap "path" with
        | some (.str path) =>
          let value := (lookupStr opMap "value").getD .null
          let pathKeys := parsePath path
          let originalValue := getValueAtPath t pathKeys
          if opType = "add" then
            applyJsonOps resKey source spare (applyAdd spare t pathKeys value)
              (log ++ [⟨resKey, pathKeys, source, originalValue, value⟩]) rest
          else if opType = "replace" then
            applyJsonOps resKey source spare (applyReplace t pathKeys value)
              (log ++ [⟨resKey, pathKeys, source, originalValue, value⟩]) rest
          else if opType = "remove" then
            applyJsonOps resKey source spare (applyRemove t pathKeys)
              (log ++ [⟨resKey, pathKeys, source, originalValue, .null⟩]) rest
          else
            applyJsonOps resKey source spare t log rest
        | _ => .error "Missing or invalid path"
      | _ => .error "Missing or invalid operation type"
    | _ => .error "Invalid patch operation format"

/-- A collected patch (`types.Patch` after resolution): target
selector, source file path (`""` = inline) and the parsed body.  The
body is carried parsed (YAML decoding is the external codec): a list
is the JSON-patch dialect, a map the merge dialect, anything else
matches neither branch of the dispatch `switch`. -/
structure Patch where
  targetKind : String
  targetName : String
  path : String
  content : Value

/-- The cross-patch state of the patch loop: the process-wide ordered
record log (`fieldSources`) and the number of warnings printed.  The
resource index is read-only in the loop: the patched tree is rebuilt
from a deep copy each time and never written back. -/
structure EngineState where
  log : List FieldSource
  warnings : Nat
  deriving DecidableEq

/-- Target resolution (kdiff.go:141-156): an exact `kind/name` index
key, or — when the patch names no resource — the first index entry
whose key starts with `kind/` (Go ranges over the index map in
unspecified order; the canonical index order stands in for it, and the
properties proved below use only the empty-result case, which is
order-independent). -/
def findTarget (resources : List (String × List (String × Value)))
    (kind name : String) : Option (String × List (String × Value)) :=
  if name = "" then
    resources.find? (fun kv => (kind ++ "/").toList.isPrefixOf kv.1.toList)
  else
    match resources.find? (fun kv => kv.1 = kind ++ "/" ++ name) with
    | some kv => some kv
    | none => none

/-- One iteration of the patch loop (kdiff.go:132-321): resolve the
target (a missing target warns and skips), then dispatch on the parsed
body — a list runs the JSON-patch dialect, a map the merge dialect,
anything else neither.  Records are appended to the process-wide log;
the mutated tree is dropped (the index is never updated). -/
def processPatch (resources : List (String × List (String × Value)))
    (spare : Bool) (st : EngineState) (p : Patch) : Except String EngineState :=
  match findTarget resources p.targetKind p.targetName with
  | none => .ok { st with warnings := st.warnings + 1 }
  | some (key, tree) =>
    match p.content with
    | .arr ops =>
      match applyJsonOps key p.path spare (.obj tree) st.log ops with
      | .ok (_, log') => .ok { st with log := log' }
      | .error e => .error e
    | .obj patchMap =>
        .ok { st with log := st.log ++ (applyMergePatch key p.path tree patchMap).2 }
    | _ => .ok st

/-- The whole patch loop, in collected order. -/
def runPatches (resources : List (String × List (String × Value)))
    (spare : Bool) : EngineState → List Patch → Except String EngineState
  | st, [] => .ok st
  | st, p :: rest =>
    match processPatch resources spare st p with
    | .ok st' => runPatches resources spare st' rest
    | .error e => .error e

/-- A patch target selector (`types.Selector`, kind and name). -/
structure KTarget where
  kind : String
  name : String
  deriving DecidableEq

/-- A declared `patchesJson6902` manifest entry
(`types.PatchJson6902`): optional file path, optional inline body. -/
structure KJson6902 where
  target : KTarget
  path : String
  patch : String
  deriving DecidableEq

/-- A collected raw patch record (`types.Patch`): optional file path,
optional inline body. -/
structure KPatch where
  target : KTarget
  path : String
  patch : String
  deriving DecidableEq

/-- `filepath.Join` of a directory and a relative path (simplified to
separator insertion; every use below is on clean segments). -/
def joinPath (dir p : String) : String := dir ++ "/" ++ p

/-- The `patchesJson6902` collection loop of `processKustomization`
(kdiff.go:424-433; the root kustomization runs the same loop,
kdiff.go:106-115).  The resolved file path is written into the
loop-local copy `patch.Path`, but the record appended to `allPatches`
is built from `Target` and `Patch` only, so the resolved path is
discarded and no file is ever read here. -/
def collectJson6902 (dir : String) (entries : List KJson6902) : List KPatch :=
  entries.map (fun e =>
    let _resolved := if e.path ≠ "" then joinPath dir e.path else e.path
    { target := e.target, path := "", patch := e.patch })

/-- Group membership for the final report (kdiff.go:333-336):
`resourceChanges[key]` is built by appending records in log order, so
the group of a key is the log filtered to that key. -/
def groupOf (log : List FieldSource) (k : String) : List FieldSource :=
  log.filter (fun s => s.resource = k)

/-- The order in which resource keys first appear in the log. -/
def firstSeenKeys (log : List FieldSource) : List String :=
  log.foldl (fun ks s => if s.resource ∈ ks then ks else ks ++ [s.resource]) []

/-- The report emitter (kdiff.go:339-367) ranges over the Go map
`resourceChanges`; the enumeration `order` of the distinct resource
keys it happens to produce is unspecified.  Each emitted group pairs a
key with its records. -/
def emitGroups (log : List FieldSource) (order : List String) :
    List (String × List FieldSource) :=
  order.map (fun k => (k, groupOf log k))

/-- The spec's `get` contract, stated from the spec's words for
comparison with the source's `getValueAtPath`: the node at the path
when every segment resolves, and `none` ("absent") when an
intermediate segment is missing from a map, a list index does not
parse or is outside `[0, length)`, or a scalar is reached with path
left over. -/
def specGet : Value → List String → Option Value
  | m, [] => some m
  | m, key :: rest =>
    match m with
    | .obj entries =>
      match lookupStr entries key with
      | some v => specGet v rest
      | none => none
    | .arr elems =>
      match goAtoi key with
      | some idx =>
          if 0 ≤ idx ∧ idx < (elems.length : Int) then
            specGet (elems.getD idx.toNat .null) rest
          else none
      | none => none
    | _ => none

/-- The path's final segment addresses a map key: walking the tree the
way `applyAdd`/`applyReplace` do (vivifying missing intermediate map
keys as empty maps, descending only into in-range list indices), the
container holding the final segment is a map. -/
def finalMapKey : Value → List String → Bool
  | m, [_] =>
    match m with
    | .obj _ => true
    | _ => false
  | m, key :: rest =>
    match m with
    | .obj entries => finalMapKey ((lookupStr entries key).getD (.obj [])) rest
    | .arr elems =>
      match goAtoi key with
      | some idx =>
          if 0 ≤ idx ∧ idx < (elems.length : Int) then
            finalMapKey (elems.getD idx.toNat .null) rest
          else false
      | none => false
    | _ => false
  | _, [] => false

/-- A two-resource change log used to exhibit the report emitter's
order-dependence. -/
def demoLog9 : List FieldSource :=
  [⟨"Deployment/a", ["x"], "", .null, .num 1⟩,
   ⟨"Service/b", ["y"], "", .null, .num 2⟩]

/-- The spec's worked merge example, pre-merge: `spec.replicas = 1`
and a nested leaf under `spec.template`. -/
def demoPre3 : List (String × Value) :=
  [("spec", .obj [("replicas", .num 1),
     ("template", .obj [("image", .str "test:1.0")])])]

/-- The spec's worked merge example, patch: `spec.replicas = 3` and a
changed nested leaf under `spec.template`. -/
def demoPatch3 : List (String × Value) :=
  [("spec", .obj [("replicas", .num 3),
     ("template", .obj [("image", .str "test:2.0")])])]

/-- C1: the claim — applying in-range JSON-patch operations and
recomputing `get` at each path yields the operation's intended
post-state (for `remove`, absence) — fails on the code.  For the tree
`{a: ["x"]}` and the single in-range operation `remove /a/0`,
`applyRemove` assigns the shrunk slice to a discarded local header, so
the observed tree is unchanged; `get` at `/a/0` afterwards returns
`"x"`, not the absent value.  (The pass still logs a removal record.) -/
theorem c1_remove_leaves_value_in_place :
    applyJsonOps "Deployment/test" "" false
      (.obj [("a", .arr [.str "x"])]) []
      [.obj [("op", .str "remove"), ("path", .str "/a/0")]]
    = .ok (.obj [("a", .arr [.str "x"])],
        [⟨"Deployment/test", ["a", "0"], "", .str "x", .null⟩])
    ∧ getValueAtPath (.obj [("a", .arr [.str "x"])]) ["a", "0"] = .str "x"
    ∧ Value.str "x" ≠ Value.null :=
  ⟨rfl, rfl, by decide⟩

/-- C2: the claim — an `add` whose path ends in the sentinel index
`-1` appends, growing the list from length `n` to `n+1` — fails on the
code.  On `{a: ["x"]}`, adding `"y"` at the sentinel path (segments
`a`, `-1`), `applyAdd` executes
`m = append(m, value)` into a discarded local slice header, so the
observed list still has length 1 whether or not the slice had spare
capacity.  The half of the claim about the Field Change Record holds:
the logged record's `originalValue` at the `-1` path is the absent
value. -/
theorem c2_append_sentinel_is_lost :
    applyJsonOps "Deployment/test" "" true
      (.obj [("a", .arr [.str "x"])]) []
      [.obj [("op", .str "add"), ("path", .str "/a/-1"), ("value", .str "y")]]
    = .ok (.obj [("a", .arr [.str "x"])],
        [⟨"Deployment/test", ["a", "-1"], "", .null, .str "y"⟩])
    ∧ applyJsonOps "Deployment/test" "" false
        (.obj [("a", .arr [.str "x"])]) []
        [.obj [("op", .str "add"), ("path", .str "/a/-1"), ("value", .str "y")]]
      = .ok (.obj [("a", .arr [.str "x"])],
          [⟨"Deployment/test", ["a", "-1"], "", .null, .str "y"⟩])
    ∧ getValueAtPath (.obj [("a", .arr [.str "x"])]) ["a"] = .arr [.str "x"]
    ∧ (1 : Nat) ≠ 2 :=
  ⟨rfl, rfl, rfl, by decide⟩

/-- C4: the claim — a file-based `patchesJson6902` entry is resolved
relative to the declaring overlay directory, its body read eagerly,
and a patch record appended carrying that body as `inlineBody` — fails
on the code.  The collection loop computes the joined path into the
loop-local copy and then appends `types.Patch{Target, Patch}` only, so
for the declared entry `{path: "patch.json", patch: ""}` in directory
`"overlay"` the appended record carries an empty body and no source
path; no file is ever read (the embedded loop does not even consult a
filesystem). -/
theorem c4_json6902_file_body_dropped :
    collectJson6902 "overlay" [⟨⟨"Deployment", "test"⟩, "patch.json", ""⟩]
      = [⟨⟨"Deployment", "test"⟩, "", ""⟩]
    ∧ joinPath "overlay" "patch.json" = "overlay/patch.json" :=
  ⟨rfl, rfl⟩

/-- C6: `getValueAtPath` is a total function (it is defined on every
tree and path) and it equals the spec's partial resolver `specGet`
with `none` rendered as the explicit absent value `Value.null`: it
yields the absent value exactly when a map segment is missing, a list
index does not parse or is out of `[0, length)`, or a scalar is
reached with path left over, and the resolved node otherwise. -/
theorem c6_get_total_and_absent_on_misses :
    ∀ (m : Value) (path : List String),
      getValueAtPath m path = (specGet m path).getD Value.null := by
  intro m path
  induction path generalizing m with
  | nil => simp [getValueAtPath, specGet]
  | cons key rest ih =>
    cases m with
    | obj entries =>
      simp only [getValueAtPath, specGet]
      cases lookupStr entries key with
      | some v => exact ih v
      | none => rfl
    | arr elems =>
      simp only [getValueAtPath, specGet]
      cases goAtoi key with
      | some idx =>
        by_cases h : 0 ≤ idx ∧ idx < (elems.length : Int)
        · simp only [if_pos h]
          exact ih _
        · simp [if_neg h]
      | none => rfl
    | null => rfl
    | bool b => rfl
    | num n => rfl
    | str s => rfl

/-- C10: a well-formed JSON-patch operation whose `op` string is none
of `add`, `replace`, `remove` falls through the dispatch `switch`
silently: the engine continues with the remaining operations on an
unchanged tree and log, raising no error (and the loop has no warning
path at all). -/
theorem c10_unknown_op_is_silently_ignored
    (resKey source : String) (spare : Bool) (t : Value)
    (log : List FieldSource) (rest : List Value)
    (fields : List (String × Value)) (opType pathStr : String)
    (hop : lookupStr fields "op" = some (.str opType))
    (hpath : lookupStr fields "path" = some (.str pathStr))
    (h1 : opType ≠ "add") (h2 : opType ≠ "replace") (h3 : opType ≠ "remove") :
    applyJsonOps resKey source spare t log (.obj fields :: rest)
      = applyJsonOps resKey source spare t log rest := by
  simp [applyJsonOps, hop, hpath, h1, h2, h3]

/-- Witness for C10: the RFC 6902 operation `test` on a concrete tree
is ignored: the run on `[test, replace]` equals the run on
`[replace]` alone. -/
theorem c10_witness :
    applyJsonOps "Deployment/test" "" false
      (.obj [("a", .num 1)]) []
      [.obj [("op", .str "test"), ("path", .str "/a"), ("value", .num 1)],
       .obj [("op", .str "replace"), ("path", .str "/a"), ("value", .num 2)]]
    = applyJsonOps "Deployment/test" "" false
        (.obj [("a", .num 1)]) []
        [.obj [("op", .str "replace"), ("path", .str "/a"), ("value", .num 2)]] :=
  c10_unknown_op_is_silently_ignored "Deployment/test" "" false
    (.obj [("a", .num 1)]) []
    [.obj [("op", .str "replace"), ("path", .str "/a"), ("value", .num 2)]]
    [("op", .str "test"), ("path", .str "/a"), ("value", .num 1)]
    "test" "/a" rfl rfl (by decide) (by decide) (by decide)

/-- C8: a patch whose target matches no resource-index entry (exact
`kind/name` key, or the `kind/` prefix scan when the name is empty) is
skipped non-fatally: the loop iteration only prints a warning
(`warnings + 1`), appends no Field Change Record and touches no
resource tree (the index is read-only throughout the loop), and the
run on the remaining patches proceeds from that state unchanged
otherwise. -/
theorem c8_unknown_target_skipped
    (resources : List (String × List (String × Value))) (spare : Bool)
    (st : EngineState) (p : Patch) (rest : List Patch)
    (h : findTarget resources p.targetKind p.targetName = none) :
    processPatch resources spare st p
      = .ok { st with warnings := st.warnings + 1 }
    ∧ runPatches resources spare st (p :: rest)
      = runPatches resources spare { st with warnings := st.warnings + 1 } rest := by
  refine ⟨?_, ?_⟩
  · simp [processPatch, h]
  · simp [runPatches, processPatch, h]

/-- Witness for C8: with one `Deployment/app` resource indexed, a
patch targeting `ConfigMap/missing` is skipped with a warning while a
following patch still runs. -/
theorem c8_witness :
    findTarget [("Deployment/app", [("spec", Value.num 1)])] "ConfigMap" "missing"
      = none
    ∧ runPatches [("Deployment/app", [("spec", Value.num 1)])] false
        ⟨[], 0⟩
        [⟨"ConfigMap", "missing", "", .obj [("data", .num 2)]⟩,
         ⟨"Deployment", "app", "", .obj [("spec", .num 2)]⟩]
      = runPatches [("Deployment/app", [("spec", Value.num 1)])] false
          ⟨[], 1⟩
          [⟨"Deployment", "app", "", .obj [("spec", .num 2)]⟩] :=
  ⟨rfl,
   (c8_unknown_target_skipped
      [("Deployment/app", [("spec", Value.num 1)])] false ⟨[], 0⟩
      ⟨"ConfigMap", "missing", "", .obj [("data", .num 2)]⟩
      [⟨"Deployment", "app", "", .obj [("spec", .num 2)]⟩] rfl).2⟩

/-- C7: whenever the path's final segment addresses a map key (the
walk shared by both appliers — vivifying missing intermediate map
keys, descending only into in-range list indices — ends at a map),
`applyAdd` and `applyReplace` produce the same tree: the two differ
only in their final-list-segment behaviour, and `replace` performs no
prior-existence check at a map key. -/
theorem c7_add_replace_agree_at_map_key
    (spare : Bool) (v : Value) :
    ∀ (path : List String) (m : Value), finalMapKey m path = true →
      applyAdd spare m path v = applyReplace m path v := by
  intro path
  induction path with
  | nil => intro m h; simp [finalMapKey] at h
  | cons key rest ih =>
    intro m h
    cases rest with
    | nil =>
      cases m with
      | obj entries => rfl
      | null => simp [finalMapKey] at h
      | bool b => simp [finalMapKey] at h
      | num n => simp [finalMapKey] at h
      | str s => simp [finalMapKey] at h
      | arr elems => simp [finalMapKey] at h
    | cons seg2 rest2 =>
      cases m with
      | obj entries =>
        simp only [finalMapKey] at h
        simp only [applyAdd, applyReplace]
        rw [ih _ h]
      | arr elems =>
        simp only [finalMapKey] at h
        simp only [applyAdd, applyReplace]
        cases hidx : goAtoi key with
        | some idx =>
          rw [hidx] at h
          by_cases hr : 0 ≤ idx ∧ idx < (elems.length : Int)
          · simp only [if_pos hr] at h ⊢
            rw [ih _ h]
          · simp [if_neg hr] at h
        | none => rw [hidx] at h
      | null => simp [finalMapKey] at h
      | bool b => simp [finalMapKey] at h
      | num n => simp [finalMapKey] at h
      | str s => simp [finalMapKey] at h

/-- Witness for C7: setting `spec.replicas` — a path ending at a map
key — through `add` and through `replace` produces the same tree. -/
theorem c7_witness :
    finalMapKey (.obj [("spec", .obj [("replicas", .num 1)])])
      ["spec", "replicas"] = true
    ∧ applyAdd true (.obj [("spec", .obj [("replicas", .num 1)])])
        ["spec", "replicas"] (.num 3)
      = applyReplace (.obj [("spec", .obj [("replicas", .num 1)])])
          ["spec", "replicas"] (.num 3) :=
  ⟨by decide,
   c7_add_replace_agree_at_map_key true (.num 3) ["spec", "replicas"] _ (by decide)⟩

/-- `setKey` stores the assigned binding. -/
theorem lookupStr_setKey_self (m : List (String × Value)) (k : String) (v : Value) :
    lookupStr (setKey m k v) k = some v := by
  induction m with
  | nil => simp [setKey, lookupStr]
  | cons hd tl ih =>
    obtain ⟨k', v'⟩ := hd
    by_cases h : k' = k
    · simp [setKey, h, lookupStr]
    · simp [setKey, h, lookupStr, ih]

/-- `setKey` leaves other keys' bindings alone. -/
theorem lookupStr_setKey_ne (m : List (String × Value)) (k k' : String) (v : Value)
    (h : k ≠ k') : lookupStr (setKey m k v) k' = lookupStr m k' := by
  induction m with
  | nil => simp [setKey, lookupStr, h]
  | cons hd tl ih =>
    obtain ⟨k'', v''⟩ := hd
    by_cases h2 : k'' = k
    · simp [setKey, h2, lookupStr, h]
    · simp [setKey, h2, lookupStr, ih]

/-- `mergeMap` does not touch keys the patch map does not mention. -/
theorem lookupStr_mergeMap_not_mem (src : List (String × Value)) :
    ∀ (dst : List (String × Value)) (k : String), k ∉ src.map Prod.fst →
      lookupStr (mergeMap dst src) k = lookupStr dst k := by
  induction src with
  | nil => intro dst k _; simp [mergeMap]
  | cons hd tl ih =>
    obtain ⟨key, srcVal⟩ := hd
    intro dst k hk
    simp only [List.map_cons, List.mem_cons] at hk
    push_neg at hk
    simp only [mergeMap]
    rw [ih _ _ hk.2, lookupStr_setKey_ne _ _ _ _ (fun h => hk.1 h.symm)]

/-- `mergeOne` spelled out by cases on the destination's binding and
the patch value. -/
theorem mergeOne_eq (o : Option Value) (v : Value) :
    mergeOne o v
      = match o, v with
        | some (.obj d), .obj s => .obj (mergeMap d s)
        | some (.arr d), .arr s => .arr (d ++ s)
        | _, _ => v := by
  cases o with
  | none => cases v <;> simp [mergeOne]
  | some w => cases w <;> cases v <;> simp [mergeOne]

/-- C5: the strategic merge satisfies, for every key (Go map keys are
distinct): when the patch map binds the key, map-into-map merges
recursively, list-onto-list concatenates destination-then-patch, and
every other type combination takes the patch value outright; keys the
patch map does not bind keep the destination's binding. -/
theorem c5_merge_per_key (dst src : List (String × Value))
    (hsrc : (src.map Prod.fst).Nodup) (k : String) :
    lookupStr (mergeMap dst src) k
      = match lookupStr dst k, lookupStr src k with
        | some (.obj d), some (.obj s) => some (.obj (mergeMap d s))
        | some (.arr d), some (.arr s) => some (.arr (d ++ s))
        | _, some sv => some sv
        | ld, none => ld := by
  induction src generalizing dst with
  | nil => simp [mergeMap, lookupStr]
  | cons hd tl ih =>
    obtain ⟨key, srcVal⟩ := hd
    simp only [List.map_cons, List.nodup_cons] at hsrc
    simp only [mergeMap]
    by_cases hk : key = k
    · subst hk
      rw [lookupStr_mergeMap_not_mem _ _ _ hsrc.1, lookupStr_setKey_self]
      simp only [lookupStr, if_pos rfl]
      cases h : lookupStr dst key with
      | none => cases srcVal <;> simp [mergeOne]
      | some w => cases w <;> cases srcVal <;> simp [mergeOne]
    · have hs' : lookupStr ((key, srcVal) :: tl) k = lookupStr tl k := by
        simp [lookupStr, hk]
      rw [hs', ih _ hsrc.2, lookupStr_setKey_ne _ _ _ _ hk]

/-- Witness for C5: merging `{a: {x: 2}}` into `{a: {x: 1, y: 5}}`
recursively merges the sub-maps at key `a`. -/
theorem c5_witness :
    (([("a", Value.obj [("x", Value.num 2)])].map Prod.fst).Nodup)
    ∧ lookupStr
        (mergeMap [("a", .obj [("x", .num 1), ("y", .num 5)])]
          [("a", .obj [("x", .num 2)])]) "a"
      = match lookupStr [("a", Value.obj [("x", Value.num 1), ("y", Value.num 5)])] "a",
              lookupStr [("a", Value.obj [("x", Value.num 2)])] "a" with
        | some (.obj d), some (.obj s) => some (.obj (mergeMap d s))
        | some (.arr d), some (.arr s) => some (.arr (d ++ s))
        | _, some sv => some sv
        | ld, none => ld :=
  ⟨by decide,
   c5_merge_per_key [("a", .obj [("x", .num 1), ("y", .num 5)])]
     [("a", .obj [("x", .num 2)])] (by decide) "a"⟩

/-- Copying a list copies nothing, given that for the members. -/
theorem deepCopyArr_eq_of (l : List Value) (h : ∀ v ∈ l, deepCopyValue v = v) :
    deepCopyArr l = l := by
  induction l with
  | nil => rfl
  | cons x xs ih =>
    simp only [deepCopyArr]
    rw [h x (by simp), ih (fun v hv => h v (by simp [hv]))]

/-- Copying a map copies nothing, given that for the bindings. -/
theorem deepCopyObj_eq_of (m : List (String × Value))
    (h : ∀ kv ∈ m, deepCopyValue kv.2 = kv.2) : deepCopyObj m = m := by
  induction m with
  | nil => rfl
  | cons kv tl ih =>
    obtain ⟨k, v⟩ := kv
    simp only [deepCopyObj]
    rw [h (k, v) (by simp), ih (fun kv hkv => h kv (by simp [hkv]))]

/-- `deepCopyValue` is the identity on trees: the snapshot taken
before a strategic merge equals the pre-merge tree. -/
theorem deepCopyValue_eq : ∀ v : Value, deepCopyValue v = v := by
  intro v
  induction v using Value.recMem with
  | hnull => rfl
  | hbool b => rfl
  | hnum n => rfl
  | hstr s => rfl
  | harr elems ih => simp only [deepCopyValue]; rw [deepCopyArr_eq_of elems ih]
  | hobj entries ih => simp only [deepCopyValue]; rw [deepCopyObj_eq_of entries ih]

/-- `deepCopyObj` is the identity on maps. -/
theorem deepCopyObj_eq (m : List (String × Value)) : deepCopyObj m = m :=
  deepCopyObj_eq_of m (fun kv _ => deepCopyValue_eq kv.2)

/-- The keys of `setKey`: unchanged for a present key, the new key
appended otherwise. -/
theorem keys_setKey (m : List (String × Value)) (k : String) (v : Value) :
    (setKey m k v).map Prod.fst
      = if k ∈ m.map Prod.fst then m.map Prod.fst else m.map Prod.fst ++ [k] := by
  induction m with
  | nil => simp [setKey]
  | cons hd tl ih =>
    obtain ⟨k', v'⟩ := hd
    by_cases h : k' = k
    · simp [setKey, h]
    · have hne : ¬k = k' := fun hh => h hh.symm
      simp only [setKey, if_neg h, List.map_cons, ih]
      by_cases hm : k ∈ tl.map Prod.fst
      · simp [hm, hne]
      · simp [hm, hne]

/-- `setKey` keeps every existing key. -/
theorem mem_keys_setKey (m : List (String × Value)) (k k' : String) (v : Value)
    (h : k ∈ m.map Prod.fst) : k ∈ (setKey m k' v).map Prod.fst := by
  rw [keys_setKey]
  by_cases hm : k' ∈ m.map Prod.fst <;> simp [hm, h]

/-- `setKey` keeps distinctness of keys. -/
theorem keys_setKey_nodup (m : List (String × Value)) (k : String) (v : Value)
    (h : (m.map Prod.fst).Nodup) : ((setKey m k v).map Prod.fst).Nodup := by
  rw [keys_setKey]
  by_cases hm : k ∈ m.map Prod.fst
  · simp [hm, h]
  · simp only [if_neg hm, List.nodup_append]
    refine ⟨h, List.nodup_singleton k, ?_⟩
    intro x hx hxk
    rw [List.mem_singleton] at hxk
    subst hxk
    exact hm hx

/-- `mergeMap` never drops a destination key. -/
theorem mem_keys_mergeMap (src : List (String × Value)) :
    ∀ (dst : List (String × Value)) (k : String), k ∈ dst.map Prod.fst →
      k ∈ (mergeMap dst src).map Prod.fst := by
  induction src with
  | nil => intro dst k h; simpa [mergeMap] using h
  | cons hd tl ih =>
    obtain ⟨key, srcVal⟩ := hd
    intro dst k h
    simp only [mergeMap]
    exact ih _ k (mem_keys_setKey _ _ _ _ h)

/-- `mergeMap` keeps distinctness of keys. -/
theorem keys_mergeMap_nodup (src : List (String × Value)) :
    ∀ (dst : List (String × Value)), (dst.map Prod.fst).Nodup →
      ((mergeMap dst src).map Prod.fst).Nodup := by
  induction src with
  | nil => intro dst h; simpa [mergeMap] using h
  | cons hd tl ih =>
    obtain ⟨key, srcVal⟩ := hd
    intro dst h
    simp only [mergeMap]
    exact ih _ (keys_setKey_nodup _ _ _ h)

/-- A key with a binding is found. -/
theorem lookupStr_eq_some_of_mem_keys (m : List (String × Value)) (k : String)
    (h : k ∈ m.map Prod.fst) : ∃ v, lookupStr m k = some v := by
  induction m with
  | nil => simp at h
  | cons hd tl ih =>
    obtain ⟨k', v'⟩ := hd
    by_cases hk : k' = k
    · exact ⟨v', by simp [lookupStr, hk]⟩
    · simp only [List.map_cons, List.mem_cons] at h
      rcases h with h | h
      · exact absurd h.symm hk
      · obtain ⟨v, hv⟩ := ih h
        exact ⟨v, by simp [lookupStr, hk, hv]⟩

/-- Generic shape of a keep-or-drop scan: filtering by the guard and
mapping the payload. -/
theorem filterMap_guard_eq_filter_map {α β : Type} (p : α → Bool) (g : α → β) :
    ∀ l : List α,
      l.filterMap (fun a => if p a then none else some (g a))
        = (l.filter (fun a => !p a)).map g := by
  intro l
  induction l with
  | nil => rfl
  | cons x xs ih =>
    by_cases h : p x = true
    · simp [List.filterMap_cons, List.filter_cons, h, ih]
    · simp only [Bool.not_eq_true] at h
      simp [List.filterMap_cons, List.filter_cons, h, ih]

/-- The changed-keys scan entry, rewritten with a boolean guard: a
record exactly when the snapshot's binding is not the merged one,
carrying the snapshot value (absent rendered as `null`) and the merged
value. -/
theorem mergeScanEntry_eq (rk psrc : String) (pre : List (String × Value))
    (kv : String × Value) :
    mergeScanEntry rk psrc pre kv
      = if lookupStr pre kv.1 == some kv.2 then none
        else some (FieldSource.mk rk [kv.1] psrc
          ((lookupStr pre kv.1).getD .null) kv.2) := by
  unfold mergeScanEntry
  cases h : lookupStr pre kv.1 with
  | none => simp [h]
  | some old =>
    by_cases he : old = kv.2
    · subst he
      have hb : deepEqual kv.2 kv.2 = true := (deepEqual_iff _ _).mpr rfl
      simp [h, hb]
    · have hb : deepEqual old kv.2 = false := by
        cases hc : deepEqual old kv.2 with
        | false => rfl
        | true => exact absurd ((deepEqual_iff _ _).mp hc) he
      simp [hb, he]

/-- C3: strategic-merge provenance is recorded only at the top level:
the records of a merge pass are exactly one per top-level binding of
the post-merge map that differs from the pre-merge map (by deep
structural equality), in the form
`path = [key]`, `originalValue` = the full pre-merge sub-tree (absent
for a new key), `newValue` = the full post-merge sub-tree; the merge
never removes a top-level key, so the removed-keys loop contributes
nothing and keys present only pre-merge do not occur; and the recorded
paths are distinct, so nested differing leaves produce no additional
records. -/
theorem c3_merge_provenance_top_level (rk psrc : String)
    (pre patch : List (String × Value)) (hpre : (pre.map Prod.fst).Nodup) :
    (applyMergePatch rk psrc pre patch).2
      = ((mergeMap pre patch).filter
            (fun kv => !(lookupStr pre kv.1 == some kv.2))).map
          (fun kv => FieldSource.mk rk [kv.1] psrc
            ((lookupStr pre kv.1).getD .null) kv.2)
    ∧ (∀ k ∈ pre.map Prod.fst, k ∈ (mergeMap pre patch).map Prod.fst)
    ∧ ((applyMergePatch rk psrc pre patch).2.map (fun r => r.path)).Nodup := by
  have hrec : (applyMergePatch rk psrc pre patch).2
      = mergeChangeRecords rk psrc (deepCopyObj pre) (mergeMap pre patch) := rfl
  have hmain : (applyMergePatch rk psrc pre patch).2
      = ((mergeMap pre patch).filter
            (fun kv => !(lookupStr pre kv.1 == some kv.2))).map
          (fun kv => FieldSource.mk rk [kv.1] psrc
            ((lookupStr pre kv.1).getD .null) kv.2) := by
    rw [hrec, deepCopyObj_eq]
    unfold mergeChangeRecords
    have h2 : pre.filterMap (removedScanEntry rk psrc (mergeMap pre patch)) = [] := by
      rw [List.filterMap_eq_nil_iff]
      intro kv hkv
      obtain ⟨v, hv⟩ := lookupStr_eq_some_of_mem_keys (mergeMap pre patch) kv.1
        (mem_keys_mergeMap patch pre kv.1 (List.mem_map_of_mem Prod.fst hkv))
      simp [removedScanEntry, hv]
    rw [h2, List.append_nil]
    rw [List.filterMap_congr (fun kv _ => mergeScanEntry_eq rk psrc pre kv)]
    exact filterMap_guard_eq_filter_map _ _ _
  refine ⟨hmain, fun k hk => mem_keys_mergeMap patch pre k hk, ?_⟩
  rw [hmain, List.map_map]
  have hkeys : ((mergeMap pre patch).map Prod.fst).Nodup :=
    keys_mergeMap_nodup patch pre hpre
  have hsub : (((mergeMap pre patch).filter
      (fun kv => !(lookupStr pre kv.1 == some kv.2))).map Prod.fst).Nodup :=
    hkeys.sublist ((List.filter_sublist _).map Prod.fst)
  have hform : (((mergeMap pre patch).filter
        (fun kv => !(lookupStr pre kv.1 == some kv.2))).map
      ((fun r => FieldSource.path r) ∘ fun kv => FieldSource.mk rk [kv.1] psrc
        ((lookupStr pre kv.1).getD .null) kv.2))
      = (((mergeMap pre patch).filter
          (fun kv => !(lookupStr pre kv.1 == some kv.2))).map Prod.fst).map
        (fun k => [k]) := by
    rw [List.map_map]
    rfl
  rw [hform]
  exact hsub.map (fun a b h => by simpa using h)

/-- Witness for C3: the spec's worked example — a merge patch that
changes `spec.replicas` and one nested leaf under `spec.template` —
instantiates the top-level-only provenance theorem (its record list
collapses to exactly one record, for key `spec`). -/
theorem c3_witness :
    ((demoPre3.map Prod.fst).Nodup)
    ∧ ((applyMergePatch "Deployment/test" "p.yaml" demoPre3 demoPatch3).2
        = ((mergeMap demoPre3 demoPatch3).filter
              (fun kv => !(lookupStr demoPre3 kv.1 == some kv.2))).map
            (fun kv => FieldSource.mk "Deployment/test" [kv.1] "p.yaml"
              ((lookupStr demoPre3 kv.1).getD .null) kv.2)
      ∧ (∀ k ∈ demoPre3.map Prod.fst,
            k ∈ (mergeMap demoPre3 demoPatch3).map Prod.fst)
      ∧ ((applyMergePatch "Deployment/test" "p.yaml" demoPre3 demoPatch3).2.map
            (fun r => r.path)).Nodup) :=
  ⟨by decide,
   c3_merge_provenance_top_level "Deployment/test" "p.yaml" demoPre3 demoPatch3
     (by decide)⟩

/-- Membership in the first-seen fold, accumulator generalized. -/
theorem mem_firstSeenKeys_aux (log : List FieldSource) :
    ∀ (acc : List String) (k : String),
      k ∈ log.foldl
          (fun ks s => if s.resource ∈ ks then ks else ks ++ [s.resource]) acc
        ↔ k ∈ acc ∨ k ∈ log.map (fun s => s.resource) := by
  induction log with
  | nil => simp
  | cons s tl ih =>
    intro acc k
    simp only [List.foldl_cons, List.map_cons, List.mem_cons]
    rw [ih]
    by_cases h : s.resource ∈ acc
    · rw [if_pos h]
      constructor
      · rintro (h1 | h2)
        · exact Or.inl h1
        · exact Or.inr (Or.inr h2)
      · rintro (h1 | h2 | h3)
        · exact Or.inl h1
        · exact Or.inl (h2 ▸ h)
        · exact Or.inr h3
    · rw [if_neg h]
      simp [List.mem_append, or_assoc]

/-- A key is first-seen iff some record carries it. -/
theorem mem_firstSeenKeys (log : List FieldSource) (k : String) :
    k ∈ firstSeenKeys log ↔ k ∈ log.map (fun s => s.resource) := by
  simpa using mem_firstSeenKeys_aux log [] k

/-- The first-seen fold keeps a duplicate-free accumulator
duplicate-free. -/
theorem firstSeenKeys_nodup_aux (log : List FieldSource) :
    ∀ acc : List String, acc.Nodup →
      (log.foldl
        (fun ks s => if s.resource ∈ ks then ks else ks ++ [s.resource]) acc).Nodup := by
  induction log with
  | nil => intro acc h; simpa using h
  | cons s tl ih =>
    intro acc h
    simp only [List.foldl_cons]
    apply ih
    by_cases hm : s.resource ∈ acc
    · simpa [hm] using h
    · rw [if_neg hm]
      simp only [List.nodup_append]
      refine ⟨h, List.nodup_singleton _, ?_⟩
      intro x hx hxk
      rw [List.mem_singleton] at hxk
      subst hxk
      exact hm hx

/-- First-seen keys are distinct. -/
theorem firstSeenKeys_nodup (log : List FieldSource) :
    (firstSeenKeys log).Nodup :=
  firstSeenKeys_nodup_aux log [] (List.nodup_nil)

/-- Summing an equality indicator over a list counts occurrences. -/
theorem sum_indicator_count (r : String) :
    ∀ l : List String, (l.map (fun k => if r = k then 1 else 0)).sum = l.count r := by
  intro l
  induction l with
  | nil => simp
  | cons k tl ih =>
    simp only [List.map_cons, List.sum_cons, List.count_cons, ih]
    by_cases h : r = k
    · subst h
      simp [Nat.add_comm]
    · have h2 : ¬k = r := fun hh => h hh.symm
      simp [h, h2]

/-- Pointwise sums split. -/
theorem sum_map_add {α : Type} (f g : α → Nat) :
    ∀ l : List α, (l.map (fun a => f a + g a)).sum = (l.map f).sum + (l.map g).sum := by
  intro l
  induction l with
  | nil => simp
  | cons x xs ih => simp [ih]; omega

/-- Any duplicate-free key enumeration that covers the log's resource
keys yields groups whose sizes add up to the whole log: the groups
partition the log. -/
theorem groups_partition_length (order : List String) (hnd : order.Nodup) :
    ∀ log : List FieldSource, (∀ s ∈ log, s.resource ∈ order) →
      (order.map (fun k => (groupOf log k).length)).sum = log.length := by
  intro log
  induction log with
  | nil => intro _; simp [groupOf]
  | cons s tl ih =>
    intro hcov
    have hs : s.resource ∈ order := hcov s (by simp)
    have htl : ∀ x ∈ tl, x.resource ∈ order := fun x hx => hcov x (by simp [hx])
    have hlen : ∀ k ∈ order, (groupOf (s :: tl) k).length
        = (if s.resource = k then 1 else 0) + (groupOf tl k).length := by
      intro k _
      by_cases h : s.resource = k
      · simp [groupOf, List.filter_cons, h, Nat.add_comm]
      · simp [groupOf, List.filter_cons, h]
    rw [List.map_congr_left hlen, sum_map_add, sum_indicator_count,
      List.count_eq_one_of_mem hnd hs, ih htl]
    simp [Nat.add_comm]

/-- C9 counterexample: the claim — report groups are emitted in the
first-seen order of resource keys — is false of the code.  The emitter
ranges over the Go map `resourceChanges`, whose enumeration order is
unspecified: any permutation of the key set is an admissible run.  For
a log whose first-seen order is `Deployment/a, Service/b`, the
admissible enumeration `Service/b, Deployment/a` emits the groups in
the other order. -/
theorem c9_counterexample :
    (["Service/b", "Deployment/a"] : List String).Perm (firstSeenKeys demoLog9)
    ∧ emitGroups demoLog9 ["Service/b", "Deployment/a"]
        ≠ emitGroups demoLog9 (firstSeenKeys demoLog9) := by
  constructor
  · decide
  · decide

/-- C9 amended: Field Change Records are grouped by resource key —
under every admissible enumeration of the key set the emitted
groups are a permutation of the first-seen-order emission, every
emitted key is a resource key occurring in the log, and the group
sizes sum to the log's length (the groups partition the log) — but
the order in which the groups are emitted is an unspecified
enumeration of the keys, not necessarily first-seen order. -/
theorem c9_grouping_amended (log : List FieldSource) (order : List String)
    (h : order.Perm (firstSeenKeys log)) :
    (emitGroups log order).Perm (emitGroups log (firstSeenKeys log))
    ∧ (∀ k ∈ order, k ∈ log.map (fun s => s.resource))
    ∧ ((emitGroups log order).map (fun kg => kg.2.length)).sum = log.length := by
  refine ⟨h.map _, ?_, ?_⟩
  · intro k hk
    exact (mem_firstSeenKeys log k).mp (h.subset hk)
  · have hnd : order.Nodup := h.nodup_iff.mpr (firstSeenKeys_nodup log)
    have hcov : ∀ s ∈ log, s.resource ∈ order := by
      intro s hs
      exact h.symm.subset ((mem_firstSeenKeys log s.resource).mpr
        (List.mem_map_of_mem _ hs))
    have := groups_partition_length order hnd log hcov
    simpa [emitGroups, List.map_map, Function.comp] using this

/-- Witness for C9's amended claim at the counterexample's admissible
enumeration. -/
theorem c9_witness :
    (["Service/b", "Deployment/a"] : List String).Perm (firstSeenKeys demoLog9)
    ∧ ((emitGroups demoLog9 ["Service/b", "Deployment/a"]).Perm
          (emitGroups demoLog9 (firstSeenKeys demoLog9))
      ∧ (∀ k ∈ (["Service/b", "Deployment/a"] : List String),
            k ∈ demoLog9.map (fun s => s.resource))
      ∧ ((emitGroups demoLog9 ["Service/b", "Deployment/a"]).map
            (fun kg => kg.2.length)).sum = demoLog9.length) :=
  ⟨by decide,
   c9_grouping_amended demoLog9 ["Service/b", "Deployment/a"] (by decide)⟩
